import Mathlib

/-!
Verification of the mantra-miner library (src/lib.rs).

The Rust source is shallowly embedded as follows.

The output sink (a BufWriter over an arbitrary Write target) is modelled
by a `World` state recording the ordered list of chunks passed to
write_all, an optional failure limit (the sink accepts that many writes
and then rejects every further write with an I/O error; a limit of
`none` means the sink never fails, matching the reference sink), and the
number of thread sleeps performed.  Fallible emission routines return
`Except World World`: the error case carries the world frozen at the
failing write, mirroring the immediate propagation of `?` in Rust.

The worker loop of MantraMiner::run is a fuel-indexed step function.
The cancellation channel is an oracle `chan : Nat -> ChanPoll` giving
the result of the non-blocking try_recv at the k-th boundary check
(the k-th check happens when the local run_count equals k).  Fuel
exhaustion returns a `running` state carrying the loop variables, so
intermediate moments of an unbounded or long run are observable.

MantraMiner itself is a record of the fields of the Rust struct, with
the Sender option modelled as a Bool and the shared counter inlined as
a Nat (the worker receives its starting value and yields its final
value, which models the Arc-shared cell in a single-run view).
-/

/-- A mantra: syllables plus an optional repeat count (from src/lib.rs,
struct Mantra). -/
structure Mantra where
  syllables : List String
  repeats : Option Nat
deriving DecidableEq

/-- The configuration of the miner (from src/lib.rs, struct Options). -/
structure Options where
  preparation : Option String
  preparation_repeats : Option Nat
  mantras : List Mantra
  conclusion : Option String
  conclusion_repeats : Option Nat
  repeats : Option Nat
  rate_ns : Nat
deriving DecidableEq

/-- The state of the output sink and of the worker thread's clock: the
chunks written so far, an optional limit after which writes fail, and
the number of sleeps performed. -/
structure World where
  written : List String
  failLimit : Option Nat
  sleeps : Nat
deriving DecidableEq

/-- A world whose sink never rejects a write and where nothing has
happened yet. -/
def freshWorld : World := { written := [], failLimit := none, sleeps := 0 }

/-- One write_all call on the sink: appends the chunk, or fails (carrying
the unchanged world) once the accepted-write limit is reached. -/
def writeAll (w : World) (chunk : String) : Except World World :=
  match w.failLimit with
  | none => .ok { w with written := w.written ++ [chunk] }
  | some k =>
    if w.written.length < k then .ok { w with written := w.written ++ [chunk] }
    else .error w

/-- One thread::sleep call. -/
def sleep (w : World) : World := { w with sleeps := w.sleeps + 1 }

/-- The line terminator written after every syllable. -/
def nl : String := "\n"

/-- The inner loop of Mantra::recite: for each syllable, write it, write
the terminator, then sleep. -/
def reciteSyllables : List String → World → Except World World
  | [], w => .ok w
  | syl :: rest, w =>
    match writeAll w syl with
    | .error e => .error e
    | .ok w1 =>
      match writeAll w1 nl with
      | .error e => .error e
      | .ok w2 => reciteSyllables rest (sleep w2)

/-- The outer loop of Mantra::recite: the whole syllable pass, `n` times. -/
def reciteRepeats : Nat → List String → World → Except World World
  | 0, _, w => .ok w
  | n + 1, syls, w =>
    match reciteSyllables syls w with
    | .error e => .error e
    | .ok w1 => reciteRepeats n syls w1

/-- Mantra::recite from src/lib.rs: the syllable pass repeated
`repeats.unwrap_or(1)` times. -/
def Mantra.recite (m : Mantra) (w : World) : Except World World :=
  reciteRepeats (m.repeats.getD 1) m.syllables w

/-- Options::should_repeat from src/lib.rs. -/
def Options.should_repeat (o : Options) (count : Nat) : Bool :=
  match o.repeats with
  | some repeats => count < repeats
  | none => true

/-- The character loop of MantraMiner::recite_string: write the UTF-8
encoding of each character (modelled as the singleton string), then
sleep. -/
def reciteChars : List Char → World → Except World World
  | [], w => .ok w
  | c :: rest, w =>
    match writeAll w (String.singleton c) with
    | .error e => .error e
    | .ok w1 => reciteChars rest (sleep w1)

/-- MantraMiner::recite_string from src/lib.rs: absent input writes
nothing and returns Ok at once; present input is emitted character by
character. -/
def recite_string : Option String → World → Except World World
  | none, w => .ok w
  | some s, w => reciteChars s.data w

/-- The preparation and conclusion loops of MantraMiner::run: recite the
optional string `n` times. -/
def stringRepeats : Nat → Option String → World → Except World World
  | 0, _, w => .ok w
  | n + 1, s, w =>
    match recite_string s w with
    | .error e => .error e
    | .ok w1 => stringRepeats n s w1

/-- The mantra loop of MantraMiner::run: recite every mantra in list
order. -/
def mantrasRecite : List Mantra → World → Except World World
  | [], w => .ok w
  | m :: rest, w =>
    match m.recite w with
    | .error e => .error e
    | .ok w1 => mantrasRecite rest w1

/-- The body of one full iteration of MantraMiner::run: preparation with
its repeats, then every mantra, then conclusion with its repeats. -/
def iterationBody (o : Options) (w : World) : Except World World :=
  match stringRepeats (o.preparation_repeats.getD 1) o.preparation w with
  | .error e => .error e
  | .ok w1 =>
    match mantrasRecite o.mantras w1 with
    | .error e => .error e
    | .ok w2 => stringRepeats (o.conclusion_repeats.getD 1) o.conclusion w2

/-- The result of one non-blocking poll (try_recv) of the cancellation
channel. -/
inductive ChanPoll where
  | received
  | disconnected
  | empty
deriving DecidableEq

/-- How the worker loop ended. -/
inductive ExitKind where
  | natural
  | cancelled
  | ioError
deriving DecidableEq

/-- A snapshot of the worker loop: either still running (fuel ran out
while the loop would continue), carrying the local run_count, the shared
counter and the world, or finished with an exit kind, the final shared
counter and the final world. -/
inductive RunState where
  | running (run_count : Nat) (total_count : Nat) (w : World)
  | finished (exit : ExitKind) (total_count : Nat) (w : World)
deriving DecidableEq

/-- The shared counter visible in a run-state snapshot. -/
def stateTotal : RunState → Nat
  | .running _ tc _ => tc
  | .finished _ tc _ => tc

/-- The world visible in a run-state snapshot. -/
def stateWorld : RunState → World
  | .running _ _ w => w
  | .finished _ _ w => w

/-- The loop of MantraMiner::run from src/lib.rs, one constructor per
while-loop entry, driven by fuel.  Each entry first tests
should_repeat(run_count), then polls the cancellation channel (Ok or
Disconnected break the loop; Empty proceeds), then runs the iteration
body (an I/O error ends the thread with the error, before the counter
increment), and finally increments the shared counter and run_count. -/
def runLoop (o : Options) (chan : Nat → ChanPoll) :
    Nat → Nat → Nat → World → RunState
  | 0, rc, tc, w => .running rc tc w
  | fuel + 1, rc, tc, w =>
    if o.should_repeat rc then
      match chan rc with
      | .received => .finished .cancelled tc w
      | .disconnected => .finished .cancelled tc w
      | .empty =>
        match iterationBody o w with
        | .error w1 => .finished .ioError tc w1
        | .ok w1 => runLoop o chan fuel (rc + 1) (tc + 1) w1
    else .finished .natural tc w

/-- MantraMiner::run: the loop started with run_count = 0, on the shared
counter's current value. -/
def run (o : Options) (chan : Nat → ChanPoll) (fuel : Nat) (tc : Nat)
    (w : World) : RunState :=
  runLoop o chan fuel 0 tc w

/-- A channel on which no signal ever arrives and whose sender stays
alive: every poll returns Empty. -/
def emptyChan : Nat → ChanPoll := fun _ => .empty

/-- The MantraMiner struct from src/lib.rs: options, the shared counter's
current value, and whether a Sender for the current worker is held. -/
structure MantraMiner where
  options : Options
  count : Nat
  stop_channel : Bool
deriving DecidableEq

/-- MantraMiner::new: given options, counter 0, no stop channel. -/
def MantraMiner.new (options : Options) : MantraMiner :=
  { options := options, count := 0, stop_channel := false }

/-- MantraMiner::stop: take the sender if present and send one signal on
it; always returns Ok.  The Bool in the result records whether a signal
was sent (a sender was present). -/
def MantraMiner.stop (m : MantraMiner) : Except Unit (MantraMiner × Bool) :=
  .ok ({ m with stop_channel := false }, m.stop_channel)

/-- MantraMiner.start: stop any existing worker, clone options and
counter into a new worker with a fresh channel, store the new sender;
always returns Ok. -/
def MantraMiner.start (m : MantraMiner) : Except Unit MantraMiner :=
  .ok { m with stop_channel := true }

/-- The caller-facing operations that take the receiver by reference in
Rust and may be interleaved between construction and inspection. -/
inductive MinerOp where
  | startOp
  | stopOp
  | countOp
deriving DecidableEq

/-- Apply one caller-facing operation to the miner state.  start and
stop always return Ok, so their Ok state is taken; count borrows the
miner immutably and leaves it unchanged. -/
def applyOp (m : MantraMiner) : MinerOp → MantraMiner
  | .startOp =>
    match m.start with
    | .ok m1 => m1
    | .error _ => m
  | .stopOp =>
    match m.stop with
    | .ok (m1, _) => m1
    | .error _ => m
  | .countOp => m

/-- Apply a sequence of caller-facing operations in order. -/
def applyOps (ops : List MinerOp) (m : MantraMiner) : MantraMiner :=
  ops.foldl applyOp m

/-- Concatenation of a list of strings, in order. -/
def concatAll : List String → String
  | [] => ""
  | s :: rest => s ++ concatAll rest

/-- The chunks one Mantra.recite call writes on a never-failing sink:
`repeats.getD 1` passes, each pass writing every syllable followed by
the terminator. -/
def mantraChunks (m : Mantra) : List String :=
  (List.replicate (m.repeats.getD 1) ((m.syllables.map (fun s => [s, nl])).flatten)).flatten

/-- The chunks one recite_string call writes on a never-failing sink:
one chunk per character of the text, nothing for an absent text. -/
def stringChunks : Option String → List String
  | none => []
  | some s => s.data.map String.singleton

/-- The chunks one full iteration of the worker writes on a
never-failing sink: preparation repeats, then every mantra in order,
then conclusion repeats. -/
def iterationChunks (o : Options) : List String :=
  (List.replicate (o.preparation_repeats.getD 1) (stringChunks o.preparation)).flatten
    ++ (o.mantras.map mantraChunks).flatten
    ++ (List.replicate (o.conclusion_repeats.getD 1) (stringChunks o.conclusion)).flatten

/-- The shared counter observed after running the worker with the given
fuel: the count() value a caller reads once the worker is done (or at
the running snapshot the fuel reaches). -/
def runTotal (o : Options) (chan : Nat → ChanPoll) (fuel tc : Nat) (w : World) : Nat :=
  stateTotal (run o chan fuel tc w)

/-- The shared counter after k consecutive starts of the same miner,
each worker running on the counter value left by the previous one and
given the same fuel, with a fresh sink and channel per start. -/
def kRuns (o : Options) (fuel : Nat) : Nat → Nat
  | 0 => 0
  | k + 1 => runTotal o emptyChan fuel (kRuns o fuel k) freshWorld

/-- The six-syllable mantra used by the repository's tests. -/
def omMantra : Mantra :=
  { syllables := ["om", "ma", "ni", "pad", "me", "hum"], repeats := none }

/-- The single-syllable 108-repeat mantra used by the repository's
tests. -/
def hriMantra : Mantra := { syllables := ["hri"], repeats := some 108 }

/-- A small concrete configuration used to instantiate the theorems:
two overall repeats, a two-character preparation, one two-syllable
mantra, no conclusion. -/
def sampleOptions : Options :=
  { preparation := some "ab"
    preparation_repeats := none
    mantras := [{ syllables := ["om", "ma"], repeats := none }]
    conclusion := none
    conclusion_repeats := none
    repeats := some 2
    rate_ns := 5 }

/-- The sample configuration with an unbounded overall repeat count. -/
def unboundedOptions : Options := { sampleOptions with repeats := none }

/-- The world after one full iteration of the sample configuration on a
fresh never-failing sink. -/
def sampleIterWorld : World :=
  { written := ["a", "b", "om", "\n", "ma", "\n"], failLimit := none, sleeps := 4 }

/-- A sink that rejects every write. -/
def failWorld : World := { written := [], failLimit := some 0, sleeps := 0 }

/-- A channel whose signal becomes receivable at the second boundary
check (check index 1), as after a stop() sent during the first
iteration. -/
def stopAtOne : Nat → ChanPoll := fun k => if k = 1 then .received else .empty

/-- The emission contract of a routine on a never-failing sink: it
returns Ok, keeps the sink never-failing, and appends exactly the given
chunks to the output. -/
def EmitsFrom (f : World → Except World World) (cs : List String) : Prop :=
  ∀ w : World, w.failLimit = none →
    ∃ w1, f w = .ok w1 ∧ w1.failLimit = none ∧ w1.written = w.written ++ cs

theorem writeAll_ok (w : World) (c : String) (h : w.failLimit = none) :
    writeAll w c = .ok { w with written := w.written ++ [c] } := by
  simp [writeAll, h]

theorem reciteChars_ok (l : List Char) :
    EmitsFrom (reciteChars l) (l.map String.singleton) := by
  induction l with
  | nil =>
    intro w h
    exact ⟨w, rfl, h, by simp [reciteChars]⟩
  | cons c rest ih =>
    intro w h
    obtain ⟨w1, h1, h2, h3⟩ :=
      ih (sleep { w with written := w.written ++ [String.singleton c] }) h
    refine ⟨w1, ?_, h2, ?_⟩
    · simp only [reciteChars, writeAll_ok w _ h]
      exact h1
    · rw [h3]
      simp [sleep]

theorem reciteSyllables_ok (syls : List String) :
    EmitsFrom (reciteSyllables syls) ((syls.map (fun s => [s, nl])).flatten) := by
  induction syls with
  | nil =>
    intro w h
    exact ⟨w, rfl, h, by simp [reciteSyllables]⟩
  | cons syl rest ih =>
    intro w h
    obtain ⟨w1, h1, h2, h3⟩ :=
      ih (sleep { w with written := w.written ++ [syl] ++ [nl] }) h
    refine ⟨w1, ?_, h2, ?_⟩
    · simp only [reciteSyllables, writeAll_ok w syl h]
      have hn : writeAll { w with written := w.written ++ [syl] } nl
          = .ok { w with written := w.written ++ [syl] ++ [nl] } := by
        simpa using writeAll_ok { w with written := w.written ++ [syl] } nl h
      simp only [hn]
      exact h1
    · rw [h3]
      simp [sleep]

theorem reciteRepeats_ok (n : Nat) (syls : List String) :
    EmitsFrom (reciteRepeats n syls)
      ((List.replicate n ((syls.map (fun s => [s, nl])).flatten)).flatten) := by
  induction n with
  | zero =>
    intro w h
    exact ⟨w, rfl, h, by simp [reciteRepeats]⟩
  | succ n ih =>
    intro w h
    obtain ⟨wa, ha1, ha2, ha3⟩ := reciteSyllables_ok syls w h
    obtain ⟨wb, hb1, hb2, hb3⟩ := ih wa ha2
    refine ⟨wb, ?_, hb2, ?_⟩
    · simp only [reciteRepeats, ha1]
      exact hb1
    · rw [hb3, ha3]
      simp [List.replicate_succ]

theorem Mantra.recite_ok (m : Mantra) :
    EmitsFrom m.recite (mantraChunks m) := by
  intro w h
  exact reciteRepeats_ok (m.repeats.getD 1) m.syllables w h

theorem recite_string_ok (s : Option String) :
    EmitsFrom (recite_string s) (stringChunks s) := by
  cases s with
  | none =>
    intro w h
    exact ⟨w, rfl, h, by simp [stringChunks]⟩
  | some s =>
    intro w h
    exact reciteChars_ok s.data w h

theorem stringRepeats_ok (n : Nat) (s : Option String) :
    EmitsFrom (stringRepeats n s) ((List.replicate n (stringChunks s)).flatten) := by
  induction n with
  | zero =>
    intro w h
    exact ⟨w, rfl, h, by simp [stringRepeats]⟩
  | succ n ih =>
    intro w h
    obtain ⟨wa, ha1, ha2, ha3⟩ := recite_string_ok s w h
    obtain ⟨wb, hb1, hb2, hb3⟩ := ih wa ha2
    refine ⟨wb, ?_, hb2, ?_⟩
    · simp only [stringRepeats, ha1]
      exact hb1
    · rw [hb3, ha3]
      simp [List.replicate_succ]

theorem mantrasRecite_ok (ms : List Mantra) :
    EmitsFrom (mantrasRecite ms) ((ms.map mantraChunks).flatten) := by
  induction ms with
  | nil =>
    intro w h
    exact ⟨w, rfl, h, by simp [mantrasRecite]⟩
  | cons m rest ih =>
    intro w h
    obtain ⟨wa, ha1, ha2, ha3⟩ := Mantra.recite_ok m w h
    obtain ⟨wb, hb1, hb2, hb3⟩ := ih wa ha2
    refine ⟨wb, ?_, hb2, ?_⟩
    · simp only [mantrasRecite, ha1]
      exact hb1
    · rw [hb3, ha3]
      simp

theorem iterationBody_ok (o : Options) :
    EmitsFrom (iterationBody o) (iterationChunks o) := by
  intro w h
  obtain ⟨wa, ha1, ha2, ha3⟩ :=
    stringRepeats_ok (o.preparation_repeats.getD 1) o.preparation w h
  obtain ⟨wb, hb1, hb2, hb3⟩ := mantrasRecite_ok o.mantras wa ha2
  obtain ⟨wc, hc1, hc2, hc3⟩ :=
    stringRepeats_ok (o.conclusion_repeats.getD 1) o.conclusion wb hb2
  refine ⟨wc, ?_, hc2, ?_⟩
  · simp only [iterationBody, ha1, hb1]
    exact hc1
  · rw [hc3, hb3, ha3]
    simp [iterationChunks]

theorem should_repeat_some (o : Options) (n c : Nat) (h : o.repeats = some n) :
    o.should_repeat c = decide (c < n) := by
  simp [Options.should_repeat, h]

theorem should_repeat_none (o : Options) (c : Nat) (h : o.repeats = none) :
    o.should_repeat c = true := by
  simp [Options.should_repeat, h]

theorem runLoop_step (o : Options) (chan : Nat → ChanPoll) (fuel rc tc : Nat)
    (w w1 : World) (hs : o.should_repeat rc = true) (hc : chan rc = .empty)
    (hb : iterationBody o w = .ok w1) :
    runLoop o chan (fuel + 1) rc tc w = runLoop o chan fuel (rc + 1) (tc + 1) w1 := by
  simp [runLoop, hs, hc, hb]

theorem runLoop_cancel (o : Options) (chan : Nat → ChanPoll) (fuel rc tc : Nat)
    (w : World) (hs : o.should_repeat rc = true) (hc : chan rc ≠ .empty) :
    runLoop o chan (fuel + 1) rc tc w = .finished .cancelled tc w := by
  cases hcc : chan rc with
  | received => simp [runLoop, hs, hcc]
  | disconnected => simp [runLoop, hs, hcc]
  | empty => exact absurd hcc hc

theorem runLoop_err (o : Options) (chan : Nat → ChanPoll) (fuel rc tc : Nat)
    (w w1 : World) (hs : o.should_repeat rc = true) (hc : chan rc = .empty)
    (hb : iterationBody o w = .error w1) :
    runLoop o chan (fuel + 1) rc tc w = .finished .ioError tc w1 := by
  simp [runLoop, hs, hc, hb]

theorem runLoop_stop (o : Options) (chan : Nat → ChanPoll) (fuel rc tc : Nat)
    (w : World) (hs : o.should_repeat rc = false) :
    runLoop o chan (fuel + 1) rc tc w = .finished .natural tc w := by
  simp [runLoop, hs]

theorem runLoop_monotone (o : Options) (chan : Nat → ChanPoll) :
    ∀ (fuel rc tc : Nat) (w : World),
      tc ≤ stateTotal (runLoop o chan fuel rc tc w) := by
  intro fuel
  induction fuel with
  | zero =>
    intro rc tc w
    simp [runLoop, stateTotal]
  | succ fuel ih =>
    intro rc tc w
    by_cases hs : o.should_repeat rc = true
    · cases hcc : chan rc with
      | received => simp [runLoop, hs, hcc, stateTotal]
      | disconnected => simp [runLoop, hs, hcc, stateTotal]
      | empty =>
        cases hb : iterationBody o w with
        | error w1 => simp [runLoop, hs, hcc, hb, stateTotal]
        | ok w1 =>
          rw [runLoop_step o chan fuel rc tc w w1 hs hcc hb]
          exact Nat.le_trans (Nat.le_succ tc) (ih (rc + 1) (tc + 1) w1)
    · have hs1 : o.should_repeat rc = false := by
        revert hs
        cases o.should_repeat rc <;> simp
      rw [runLoop_stop o chan fuel rc tc w hs1]
      simp [stateTotal]

theorem runLoop_bound (o : Options) (chan : Nat → ChanPoll) (n : Nat)
    (h : o.repeats = some n) :
    ∀ (fuel rc tc : Nat) (w : World),
      stateTotal (runLoop o chan fuel rc tc w) ≤ tc + (n - rc) := by
  intro fuel
  induction fuel with
  | zero =>
    intro rc tc w
    simp [runLoop, stateTotal]
  | succ fuel ih =>
    intro rc tc w
    by_cases hs : o.should_repeat rc = true
    · have hrc : rc < n := by
        rw [should_repeat_some o n rc h] at hs
        exact of_decide_eq_true hs
      cases hcc : chan rc with
      | received => simp [runLoop, hs, hcc, stateTotal]
      | disconnected => simp [runLoop, hs, hcc, stateTotal]
      | empty =>
        cases hb : iterationBody o w with
        | error w1 =>
          rw [runLoop_err o chan fuel rc tc w w1 hs hcc hb]
          simp [stateTotal]
        | ok w1 =>
          rw [runLoop_step o chan fuel rc tc w w1 hs hcc hb]
          have := ih (rc + 1) (tc + 1) w1
          omega
    · have hs1 : o.should_repeat rc = false := by
        revert hs
        cases o.should_repeat rc <;> simp
      rw [runLoop_stop o chan fuel rc tc w hs1]
      simp [stateTotal]

theorem runLoop_cancelBound (o : Options) (chan : Nat → ChanPoll) (j : Nat)
    (hj : chan j ≠ .empty) :
    ∀ (fuel rc tc : Nat) (w : World), rc ≤ j →
      stateTotal (runLoop o chan fuel rc tc w) ≤ tc + (j - rc) := by
  intro fuel
  induction fuel with
  | zero =>
    intro rc tc w hrc
    simp [runLoop, stateTotal]
  | succ fuel ih =>
    intro rc tc w hrc
    by_cases hs : o.should_repeat rc = true
    · cases hcc : chan rc with
      | received => simp [runLoop, hs, hcc, stateTotal]
      | disconnected => simp [runLoop, hs, hcc, stateTotal]
      | empty =>
        have hne : rc ≠ j := by
          intro he
          exact hj (he ▸ hcc)
        cases hb : iterationBody o w with
        | error w1 =>
          rw [runLoop_err o chan fuel rc tc w w1 hs hcc hb]
          simp [stateTotal]
        | ok w1 =>
          rw [runLoop_step o chan fuel rc tc w w1 hs hcc hb]
          have := ih (rc + 1) (tc + 1) w1 (by omega)
          omega
    · have hs1 : o.should_repeat rc = false := by
        revert hs
        cases o.should_repeat rc <;> simp
      rw [runLoop_stop o chan fuel rc tc w hs1]
      simp [stateTotal]

theorem runLoop_complete (o : Options) (n : Nat) (h : o.repeats = some n) :
    ∀ (fuel rc tc : Nat) (w : World), rc ≤ n → n - rc < fuel →
      w.failLimit = none →
      ∃ w1, runLoop o emptyChan fuel rc tc w
          = .finished .natural (tc + (n - rc)) w1 ∧
        w1.failLimit = none ∧
        w1.written = w.written
          ++ (List.replicate (n - rc) (iterationChunks o)).flatten := by
  intro fuel
  induction fuel with
  | zero =>
    intro rc tc w hrc hfuel hw
    omega
  | succ fuel ih =>
    intro rc tc w hrc hfuel hw
    by_cases hrcn : rc < n
    · have hs : o.should_repeat rc = true := by
        rw [should_repeat_some o n rc h]
        exact decide_eq_true hrcn
      obtain ⟨wa, ha1, ha2, ha3⟩ := iterationBody_ok o w hw
      rw [runLoop_step o emptyChan fuel rc tc w wa hs rfl ha1]
      obtain ⟨w1, hb1, hb2, hb3⟩ := ih (rc + 1) (tc + 1) wa (by omega) (by omega) ha2
      refine ⟨w1, ?_, hb2, ?_⟩
      · rw [hb1]
        congr 1
        omega
      · rw [hb3, ha3]
        have hsplit : n - rc = (n - (rc + 1)) + 1 := by omega
        rw [hsplit, List.replicate_succ]
        simp
    · have hrceq : rc = n := by omega
      subst hrceq
      have hs : o.should_repeat rc = false := by
        rw [should_repeat_some o rc rc h]
        simp
      rw [runLoop_stop o emptyChan fuel rc tc w hs]
      exact ⟨w, by simp, hw, by simp⟩

theorem runLoop_unbounded (o : Options) (h : o.repeats = none) :
    ∀ (fuel rc tc : Nat) (w : World), w.failLimit = none →
      ∃ w1, runLoop o emptyChan fuel rc tc w
          = .running (rc + fuel) (tc + fuel) w1 ∧
        w1.failLimit = none ∧
        w1.written = w.written
          ++ (List.replicate fuel (iterationChunks o)).flatten := by
  intro fuel
  induction fuel with
  | zero =>
    intro rc tc w hw
    exact ⟨w, by simp [runLoop], hw, by simp⟩
  | succ fuel ih =>
    intro rc tc w hw
    have hs : o.should_repeat rc = true := should_repeat_none o rc h
    obtain ⟨wa, ha1, ha2, ha3⟩ := iterationBody_ok o w hw
    rw [runLoop_step o emptyChan fuel rc tc w wa hs rfl ha1]
    obtain ⟨w1, hb1, hb2, hb3⟩ := ih (rc + 1) (tc + 1) wa ha2
    refine ⟨w1, ?_, hb2, ?_⟩
    · rw [hb1]
      congr 1 <;> omega
    · rw [hb3, ha3]
      simp [List.replicate_succ]

theorem concatAll_append (a b : List String) :
    concatAll (a ++ b) = concatAll a ++ concatAll b := by
  induction a with
  | nil =>
    apply String.ext
    simp [concatAll, String.data_append]
  | cons s rest ih =>
    apply String.ext
    simp [concatAll, ih, String.data_append]

theorem concatAll_singletons (l : List Char) :
    (concatAll (l.map String.singleton)).data = l := by
  induction l with
  | nil => rfl
  | cons c rest ih =>
    simp [concatAll, String.data_append, ih]

theorem concatAll_stringChunks (s : String) :
    concatAll (stringChunks (some s)) = s := by
  apply String.ext
  simp [stringChunks, concatAll_singletons]

theorem applyOps_options (ops : List MinerOp) :
    ∀ m : MantraMiner, (applyOps ops m).options = m.options := by
  induction ops with
  | nil =>
    intro m
    rfl
  | cons op rest ih =>
    intro m
    cases op with
    | startOp => exact ih { m with stop_channel := true }
    | stopOp => exact ih { m with stop_channel := false }
    | countOp => exact ih m

theorem applyOps_count (ops : List MinerOp) :
    ∀ m : MantraMiner, (applyOps ops m).count = m.count := by
  induction ops with
  | nil =>
    intro m
    rfl
  | cons op rest ih =>
    intro m
    cases op with
    | startOp => exact ih { m with stop_channel := true }
    | stopOp => exact ih { m with stop_channel := false }
    | countOp => exact ih m

theorem concatAll_pair (a b : String) : concatAll [a, b] = a ++ b := by
  apply String.ext
  simp [concatAll, String.data_append]

theorem concatAll_flatten (ls : List (List String)) :
    concatAll ls.flatten = concatAll (ls.map concatAll) := by
  induction ls with
  | nil => rfl
  | cons l rest ih =>
    simp only [List.flatten_cons, List.map_cons, concatAll_append, concatAll, ih]

/-- C1: with overall repeats = some n, a freshly constructed miner whose
worker runs with an always-empty cancellation channel and a
never-failing sink finishes naturally after exactly n iterations and
the shared counter ends at exactly n once the fuel exceeds n, and at
no point of the run (any fuel) does the counter exceed n. -/
theorem c1_bounded_repeats_count (o : Options) (n : Nat) (h : o.repeats = some n) :
    (∀ fuel, n < fuel →
      ∃ w1, run o emptyChan fuel (MantraMiner.new o).count freshWorld
        = .finished .natural n w1) ∧
    (∀ fuel,
      stateTotal (run o emptyChan fuel (MantraMiner.new o).count freshWorld) ≤ n) := by
  constructor
  · intro fuel hfuel
    obtain ⟨w1, h1, _, _⟩ :=
      runLoop_complete o n h fuel 0 0 freshWorld (Nat.zero_le n) (by omega) rfl
    exact ⟨w1, by simpa [run, MantraMiner.new] using h1⟩
  · intro fuel
    have hb := runLoop_bound o emptyChan n h fuel 0 0 freshWorld
    simpa [run, MantraMiner.new] using hb

theorem c1_bounded_repeats_count_witness :
    (∃ w1, run sampleOptions emptyChan 3 (MantraMiner.new sampleOptions).count freshWorld
      = .finished .natural 2 w1) ∧
    stateTotal (run sampleOptions emptyChan 5
      (MantraMiner.new sampleOptions).count freshWorld) ≤ 2 :=
  ⟨(c1_bounded_repeats_count sampleOptions 2 rfl).1 3 (by decide),
   (c1_bounded_repeats_count sampleOptions 2 rfl).2 5⟩

/-- C2: the shared counter never decreases along the worker loop; the
only mutation is the increment by exactly 1 performed after a full
iteration body has returned Ok (the loop then continues on the
incremented counter); and no caller-facing operation (new sets it to 0,
start, stop and count leave it unchanged) ever decreases or resets it. -/
theorem c2_counter_monotone :
    (∀ (o : Options) (chan : Nat → ChanPoll) (fuel rc tc : Nat) (w : World),
      tc ≤ stateTotal (runLoop o chan fuel rc tc w)) ∧
    (∀ (o : Options) (chan : Nat → ChanPoll) (fuel rc tc : Nat) (w w1 : World),
      o.should_repeat rc = true → chan rc = .empty → iterationBody o w = .ok w1 →
      runLoop o chan (fuel + 1) rc tc w = runLoop o chan fuel (rc + 1) (tc + 1) w1) ∧
    (∀ o : Options, (MantraMiner.new o).count = 0) ∧
    (∀ (m : MantraMiner) (ops : List MinerOp), (applyOps ops m).count = m.count) := by
  refine ⟨?_, ?_, ?_, ?_⟩
  · exact fun o chan fuel rc tc w => runLoop_monotone o chan fuel rc tc w
  · exact fun o chan fuel rc tc w w1 hs hc hb => runLoop_step o chan fuel rc tc w w1 hs hc hb
  · intro o
    rfl
  · exact fun m ops => applyOps_count ops m

theorem c2_counter_monotone_witness :
    7 ≤ stateTotal (runLoop sampleOptions emptyChan 5 0 7 freshWorld) ∧
    runLoop sampleOptions emptyChan 1 0 7 freshWorld
      = runLoop sampleOptions emptyChan 0 1 8 sampleIterWorld :=
  ⟨c2_counter_monotone.1 sampleOptions emptyChan 5 0 7 freshWorld,
   c2_counter_monotone.2.1 sampleOptions emptyChan 0 0 7 freshWorld sampleIterWorld
     rfl rfl rfl⟩

/-- C3: every while-loop entry polls the channel exactly once, before
the iteration body: a received or disconnected poll ends the loop at
once with the counter and the sink untouched by that entry, while an
empty poll lets the body run; and whenever the poll at boundary index j
would yield a signal (or disconnection), a fresh run completes at most
j iterations, so a signal sent during iteration j - 1 allows at most
that one further iteration to increment the counter. -/
theorem c3_boundary_cancellation :
    (∀ (o : Options) (chan : Nat → ChanPoll) (fuel rc tc : Nat) (w : World),
      o.should_repeat rc = true → chan rc ≠ .empty →
      runLoop o chan (fuel + 1) rc tc w = .finished .cancelled tc w) ∧
    (∀ (o : Options) (chan : Nat → ChanPoll) (j fuel : Nat) (w : World),
      chan j ≠ .empty → stateTotal (runLoop o chan fuel 0 0 w) ≤ j) := by
  constructor
  · exact fun o chan fuel rc tc w hs hc => runLoop_cancel o chan fuel rc tc w hs hc
  · intro o chan j fuel w hj
    have hb := runLoop_cancelBound o chan j hj fuel 0 0 w (Nat.zero_le j)
    simpa using hb

theorem c3_boundary_cancellation_witness :
    runLoop sampleOptions stopAtOne 1 1 1 freshWorld
      = .finished .cancelled 1 freshWorld ∧
    stateTotal (runLoop sampleOptions stopAtOne 5 0 0 freshWorld) ≤ 1 :=
  ⟨c3_boundary_cancellation.1 sampleOptions stopAtOne 0 1 1 freshWorld rfl (by decide),
   c3_boundary_cancellation.2 sampleOptions stopAtOne 1 5 freshWorld (by decide)⟩

theorem concatAll_pairMap (syls : List String) :
    concatAll ((syls.map (fun s => [s, nl])).flatten)
      = concatAll (syls.map (fun s => s ++ nl)) := by
  induction syls with
  | nil => rfl
  | cons s rest ih =>
    apply String.ext
    simp [List.map_cons, List.flatten_cons, concatAll_append, concatAll_pair,
      concatAll, ih, String.data_append]

/-- C4: one iteration of the worker emits the preparation repeated
preparation_repeats (default 1) times, then every mantra in list order,
then the conclusion repeated conclusion_repeats (default 1) times,
exactly in that order (the chunk list iterationChunks); a run with
repeats = some n appends n consecutive copies of that iteration and
finishes, and a run with repeats = none is still running after any
amount of fuel, having appended one copy per fuel step. -/
theorem c4_iteration_order (o : Options) (n : Nat) :
    (∀ w : World, w.failLimit = none →
      ∃ w1, iterationBody o w = .ok w1 ∧
        w1.written = w.written ++ iterationChunks o) ∧
    (o.repeats = some n →
      ∀ (fuel tc : Nat) (w : World), w.failLimit = none → n < fuel →
      ∃ w1, run o emptyChan fuel tc w = .finished .natural (tc + n) w1 ∧
        w1.written = w.written ++ (List.replicate n (iterationChunks o)).flatten) ∧
    (o.repeats = none →
      ∀ (fuel tc : Nat) (w : World), w.failLimit = none →
      ∃ w1, run o emptyChan fuel tc w = .running fuel (tc + fuel) w1 ∧
        w1.written = w.written ++ (List.replicate fuel (iterationChunks o)).flatten) := by
  refine ⟨?_, ?_, ?_⟩
  · intro w hw
    obtain ⟨w1, h1, _, h3⟩ := iterationBody_ok o w hw
    exact ⟨w1, h1, h3⟩
  · intro h fuel tc w hw hfuel
    obtain ⟨w1, h1, _, h3⟩ :=
      runLoop_complete o n h fuel 0 tc w (Nat.zero_le n) (by omega) hw
    exact ⟨w1, by simpa [run] using h1, by simpa using h3⟩
  · intro h fuel tc w hw
    obtain ⟨w1, h1, _, h3⟩ := runLoop_unbounded o h fuel 0 tc w hw
    exact ⟨w1, by simpa [run] using h1, h3⟩

theorem c4_iteration_order_witness :
    (∃ w1, run sampleOptions emptyChan 3 0 freshWorld
        = .finished .natural (0 + 2) w1 ∧
      w1.written = freshWorld.written
        ++ (List.replicate 2 (iterationChunks sampleOptions)).flatten) ∧
    (∃ w1, run unboundedOptions emptyChan 4 0 freshWorld
        = .running 4 (0 + 4) w1 ∧
      w1.written = freshWorld.written
        ++ (List.replicate 4 (iterationChunks unboundedOptions)).flatten) :=
  ⟨(c4_iteration_order sampleOptions 2).2.1 rfl 3 0 freshWorld rfl (by decide),
   (c4_iteration_order unboundedOptions 0).2.2 rfl 4 0 freshWorld rfl⟩

/-- C5: on a never-failing sink, Mantra.recite performs, for each of
repeats.getD 1 passes, one write of every syllable followed by one
write of the terminator, so the bytes written are exactly that many
consecutive copies of the concatenation over the syllables of
syllable ++ newline. -/
theorem c5_recite_output (m : Mantra) (w : World) (h : w.failLimit = none) :
    ∃ w1, m.recite w = .ok w1 ∧ w1.written = w.written ++ mantraChunks m ∧
      concatAll w1.written = concatAll w.written
        ++ concatAll (List.replicate (m.repeats.getD 1)
            (concatAll (m.syllables.map (fun s => s ++ nl)))) := by
  obtain ⟨w1, h1, _, h3⟩ := Mantra.recite_ok m w h
  refine ⟨w1, h1, h3, ?_⟩
  rw [h3, concatAll_append]
  congr 1
  rw [mantraChunks, concatAll_flatten, List.map_replicate, concatAll_pairMap]

theorem c5_recite_output_witness :
    ∃ w1, omMantra.recite freshWorld = .ok w1 ∧
      w1.written = freshWorld.written ++ mantraChunks omMantra ∧
      concatAll w1.written = concatAll freshWorld.written
        ++ concatAll (List.replicate (omMantra.repeats.getD 1)
            (concatAll (omMantra.syllables.map (fun s => s ++ nl)))) :=
  c5_recite_output omMantra freshWorld rfl

theorem recite_om_bytes :
    omMantra.recite freshWorld
      = .ok { written := ["om", nl, "ma", nl, "ni", nl, "pad", nl, "me", nl, "hum", nl]
              failLimit := none
              sleeps := 6 }
      ∧ concatAll ["om", nl, "ma", nl, "ni", nl, "pad", nl, "me", nl, "hum", nl]
        = "om\nma\nni\npad\nme\nhum\n" :=
  ⟨rfl, by decide⟩

set_option maxRecDepth 8000 in
theorem recite_hri_bytes :
    hriMantra.recite freshWorld
      = .ok { written := (List.replicate 108 ["hri", nl]).flatten
              failLimit := none
              sleeps := 108 }
      ∧ mantraChunks hriMantra = (List.replicate 108 ["hri", nl]).flatten :=
  ⟨rfl, rfl⟩

/-- C6: recite_string of an absent text returns the world unchanged
(no write, no sleep) wrapped in Ok; recite_string of a present text s
on a never-failing sink returns Ok having appended one chunk per
character of s, and the bytes appended are exactly s with no added
terminator. -/
theorem c6_recite_string_exact (s : String) (w : World) (h : w.failLimit = none) :
    recite_string none w = .ok w ∧
    (∃ w1, recite_string (some s) w = .ok w1 ∧
      w1.written = w.written ++ stringChunks (some s) ∧
      concatAll w1.written = concatAll w.written ++ s) := by
  refine ⟨rfl, ?_⟩
  obtain ⟨w1, h1, _, h3⟩ := recite_string_ok (some s) w h
  refine ⟨w1, h1, h3, ?_⟩
  rw [h3, concatAll_append, concatAll_stringChunks]

theorem c6_recite_string_exact_witness :
    recite_string none freshWorld = .ok freshWorld ∧
    (∃ w1, recite_string (some "ab") freshWorld = .ok w1 ∧
      w1.written = freshWorld.written ++ stringChunks (some "ab") ∧
      concatAll w1.written = concatAll freshWorld.written ++ "ab") :=
  c6_recite_string_exact "ab" freshWorld rfl

theorem recite_failZero (m : Mantra) (w : World) (syl : String)
    (rest : List String) (hw : w.failLimit = some 0)
    (hsyl : m.syllables = syl :: rest) (hr : 0 < m.repeats.getD 1) :
    m.recite w = .error w := by
  obtain ⟨r, hr1⟩ : ∃ r, m.repeats.getD 1 = r + 1 :=
    ⟨m.repeats.getD 1 - 1, by omega⟩
  have hwrite : writeAll w syl = .error w := by
    simp [writeAll, hw]
  rw [Mantra.recite, hr1, hsyl]
  simp [reciteRepeats, reciteSyllables, hwrite]

/-- C7: a rejected write makes the emission routine return the error at
once (shown for Mantra.recite on a sink rejecting every write); when
the iteration body of the worker loop returns an error, the loop ends
that very entry with an ioError exit and the shared counter untouched,
so the counter never reflects a partial iteration; and the error
reaches no caller-facing operation: start still returns Ok and leaves
the runner holding a cancellation sender, whatever the worker did. -/
theorem c7_io_error_aborts :
    (∀ (m : Mantra) (w : World) (syl : String) (rest : List String),
      w.failLimit = some 0 → m.syllables = syl :: rest →
      0 < m.repeats.getD 1 → m.recite w = .error w) ∧
    (∀ (o : Options) (chan : Nat → ChanPoll) (fuel rc tc : Nat) (w w1 : World),
      o.should_repeat rc = true → chan rc = .empty →
      iterationBody o w = .error w1 →
      runLoop o chan (fuel + 1) rc tc w = .finished .ioError tc w1) ∧
    (∀ m : MantraMiner, m.start = .ok { m with stop_channel := true }) := by
  refine ⟨recite_failZero, ?_, ?_⟩
  · exact fun o chan fuel rc tc w w1 hs hc hb =>
      runLoop_err o chan fuel rc tc w w1 hs hc hb
  · intro m
    rfl

theorem c7_io_error_aborts_witness :
    omMantra.recite failWorld = .error failWorld ∧
    runLoop sampleOptions emptyChan 1 0 0 failWorld
      = .finished .ioError 0 failWorld ∧
    MantraMiner.start (MantraMiner.new sampleOptions)
      = .ok { MantraMiner.new sampleOptions with stop_channel := true } :=
  ⟨c7_io_error_aborts.1 omMantra failWorld "om" ["ma", "ni", "pad", "me", "hum"]
      rfl rfl (by decide),
   c7_io_error_aborts.2.1 sampleOptions emptyChan 0 0 0 failWorld failWorld
      rfl rfl rfl,
   c7_io_error_aborts.2.2 (MantraMiner.new sampleOptions)⟩

/-- C8: stop always returns Ok, clearing the stored sender and sending
a signal exactly when a sender was held; a second stop on the cleared
state returns the same state and sends nothing, so stop is idempotent;
and start always returns Ok as well. -/
theorem c8_stop_start_ok :
    (∀ m : MantraMiner,
      m.stop = .ok ({ m with stop_channel := false }, m.stop_channel)) ∧
    (∀ m : MantraMiner,
      MantraMiner.stop { m with stop_channel := false }
        = .ok ({ m with stop_channel := false }, false)) ∧
    (∀ m : MantraMiner, ∃ m1, m.start = .ok m1) :=
  ⟨fun _ => rfl, fun _ => rfl, fun m => ⟨{ m with stop_channel := true }, rfl⟩⟩

/-- C9: the options stored at construction are returned unchanged by
the options query after any interleaving of start, stop and count
calls. -/
theorem c9_options_roundtrip (o : Options) (ops : List MinerOp) :
    (applyOps ops (MantraMiner.new o)).options = o := by
  rw [applyOps_options]
  rfl

/-- C10: the loop termination test compares the per-run local run_count
against repeats, never the shared counter, so a completed run adds
exactly n on top of whatever the shared counter already held; k
consecutive completed runs of the same miner therefore leave the
counter at k * n. -/
theorem c10_counter_accumulates (o : Options) (n fuel k : Nat)
    (h : o.repeats = some n) (hfuel : n < fuel) :
    (∀ (tc : Nat) (w : World), w.failLimit = none →
      ∃ w1, run o emptyChan fuel tc w = .finished .natural (tc + n) w1) ∧
    kRuns o fuel k = k * n := by
  have hone : ∀ (tc : Nat) (w : World), w.failLimit = none →
      ∃ w1, run o emptyChan fuel tc w = .finished .natural (tc + n) w1 := by
    intro tc w hw
    obtain ⟨w1, h1, _, _⟩ :=
      runLoop_complete o n h fuel 0 tc w (Nat.zero_le n) (by omega) hw
    exact ⟨w1, by simpa [run] using h1⟩
  refine ⟨hone, ?_⟩
  induction k with
  | zero => simp [kRuns]
  | succ k ih =>
    obtain ⟨w1, h1⟩ := hone (kRuns o fuel k) freshWorld rfl
    calc kRuns o fuel (k + 1)
        = stateTotal (run o emptyChan fuel (kRuns o fuel k) freshWorld) := rfl
      _ = kRuns o fuel k + n := by
          rw [h1]
          rfl
      _ = k * n + n := by rw [ih]
      _ = (k + 1) * n := by ring

theorem c10_counter_accumulates_witness :
    (∃ w1, run sampleOptions emptyChan 3 5 freshWorld
      = .finished .natural (5 + 2) w1) ∧
    kRuns sampleOptions 3 3 = 3 * 2 :=
  ⟨(c10_counter_accumulates sampleOptions 2 3 3 rfl (by decide)).1 5 freshWorld rfl,
   (c10_counter_accumulates sampleOptions 2 3 3 rfl (by decide)).2⟩
